import Mathlib

/-!
Verification of the resilient bulk event-retrieval engine of the
tempo-analytics repository, shallowly embedded from the TypeScript source
(src/server/retry.ts, src/server/logs.ts, src/server/timeModel.ts,
src/server/cache.ts).

Failures are modelled by their message strings, exactly as the source
classifies them (all classification in retry.ts and logs.ts is by substring
or pattern match on the message).  JavaScript BigInt block numbers are
modelled as naturals (the retriever only ever works at nonnegative block
numbers), JS numbers used as integers as integers, and the floating-point
average-seconds-per-block as a rational.
-/

/-- Character-list prefix test, modelling JS string matching at a position. -/
def listIsPre : List Char → List Char → Bool
  | [], _ => true
  | _ :: _, [] => false
  | a :: as, b :: bs => a == b && listIsPre as bs

/-- Character-list substring test. -/
def listHasSub (pat : List Char) : List Char → Bool
  | [] => pat.isEmpty
  | a :: rest => listIsPre pat (a :: rest) || listHasSub pat rest

/-- JS `String.prototype.includes` : substring containment. -/
def strContains (s sub : String) : Bool :=
  listHasSub sub.toList s.toList

/-- Lowercased character list of a string, modelling JS
`String.prototype.toLowerCase` on the ASCII messages involved. -/
def lowerChars (s : String) : List Char :=
  s.toList.map Char.toLower

/-- JS `s.toLowerCase().includes(sub)` for an (already lowercase)
pattern `sub`. -/
def strContainsCI (s sub : String) : Bool :=
  listHasSub sub.toList (lowerChars s)

/-- JS regex `\s` character class (whitespace). -/
def jsIsSpace (c : Char) : Bool :=
  c.val = 0x09 || c.val = 0x0a || c.val = 0x0b || c.val = 0x0c || c.val = 0x0d ||
  c.val = 0x20 || c.val = 0xa0 || c.val = 0x1680 ||
  (0x2000 ≤ c.val && c.val ≤ 0x200a) ||
  c.val = 0x2028 || c.val = 0x2029 || c.val = 0x202f || c.val = 0x205f ||
  c.val = 0x3000 || c.val = 0xfeff

/-- Value of a run of decimal digit characters (JS `Number.parseInt(_, 10)`). -/
def digitsToNat (ds : List Char) : ℕ :=
  ds.foldl (fun n c => 10 * n + (c.toNat - 48)) 0

/-- Leftmost-match regex scanning: try the position matcher at every
position from the left, first success wins, as a JS `String.match` does. -/
def scanFirst {α : Type} (f : List Char → Option α) : List Char → Option α
  | [] => f []
  | a :: rest =>
    match f (a :: rest) with
    | some x => some x
    | none => scanFirst f rest

/-- Matcher for `retry.ts`'s regex `try again in\s+(\d+)ms` anchored at the
current position (the input is already lowercased, modelling the `i` flag). -/
def matchRetryAfterAt (l : List Char) : Option ℕ :=
  let pat := "try again in".toList
  if listIsPre pat l then
    let rest := l.drop pat.length
    let ws := rest.takeWhile jsIsSpace
    if ws.isEmpty then none
    else
      let rest2 := rest.drop ws.length
      let ds := rest2.takeWhile Char.isDigit
      if ds.isEmpty then none
      else
        let rest3 := rest2.drop ds.length
        if listIsPre "ms".toList rest3 then some (digitsToNat ds) else none
  else none

/-- Embeds `parseRetryAfterMs` of src/server/retry.ts: first match of
`/try again in\s+(\d+)ms/i` in the failure message. -/
def parseRetryAfterMs (message : String) : Option ℕ :=
  scanFirst matchRetryAfterAt (lowerChars message)

/-- Matcher for `logs.ts`'s regex `retry with the range\s+(\d+)-(\d+)`
anchored at the current position (input already lowercased). -/
def matchRetryRangeAt (l : List Char) : Option (ℕ × ℕ) :=
  let pat := "retry with the range".toList
  if listIsPre pat l then
    let rest := l.drop pat.length
    let ws := rest.takeWhile jsIsSpace
    if ws.isEmpty then none
    else
      let rest2 := rest.drop ws.length
      let d1 := rest2.takeWhile Char.isDigit
      if d1.isEmpty then none
      else
        let rest3 := rest2.drop d1.length
        match rest3 with
        | '-' :: rest4 =>
          let d2 := rest4.takeWhile Char.isDigit
          if d2.isEmpty then none else some (digitsToNat d1, digitsToNat d2)
        | _ => none
  else none

/-- Embeds `parseRetryRange` of src/server/logs.ts: first match of
`/retry with the range\s+(\d+)-(\d+)/i` in the failure message, giving the
provider-suggested corrected range. -/
def parseRetryRange (message : String) : Option (ℕ × ℕ) :=
  scanFirst matchRetryRangeAt (lowerChars message)

/-- Embeds `isRateLimitError` of src/server/retry.ts (the error is modelled
by its message string). -/
def isRateLimitError (msg : String) : Bool :=
  strContains msg "Status: 429" ||
  strContainsCI msg "rate limited" ||
  strContains msg "\"code\":-32005"

/-- The transient HTTP status list of src/server/retry.ts. -/
def transientStatuses : List ℕ := [500, 502, 503, 504, 520, 522, 524]

/-- Embeds `isTransientRpcError` of src/server/retry.ts. -/
def isTransientRpcError (msg : String) : Bool :=
  transientStatuses.any (fun s => strContains msg ("Status: " ++ toString s)) ||
  strContainsCI msg "fetch failed" ||
  strContainsCI msg "socket hang up" ||
  strContainsCI msg "econnreset"

/-- A failure is retried iff it is classified RateLimited or Transient
(`withRpcRetry`'s condition in src/server/retry.ts). -/
def retryableError (msg : String) : Bool :=
  isRateLimitError msg || isTransientRpcError msg

/-- The computed exponential backoff of src/server/retry.ts:
`Math.min(10_000, 200 * 2 ** Math.min(6, attempt))`. -/
def backoffMs (attempt : ℕ) : ℕ :=
  min 10000 (200 * 2 ^ min 6 attempt)

/-- The wait actually performed before the next attempt:
`Math.max(retryAfter ?? 0, backoff)` in src/server/retry.ts. -/
def sleepForMs (attempt : ℕ) (msg : String) : ℕ :=
  max ((parseRetryAfterMs msg).getD 0) (backoffMs attempt)

/-- Embeds the retry loop of `withRpcRetry` (src/server/retry.ts).  The
wrapped call is modelled as a function from the attempt number to its
outcome; the run returns the final outcome together with the list of waits
performed, in order.  The third argument is the remaining iteration budget,
the second the current attempt number, the first the last error seen. -/
def withRpcRetryGo {α : Type} (fn : ℕ → Except String α) :
    String → ℕ → ℕ → Except String α × List ℕ
  | lastErr, _, 0 => (.error lastErr, [])
  | _, attempt, r + 1 =>
    match fn attempt with
    | .ok v => (.ok v, [])
    | .error e =>
      if retryableError e then
        let rest := withRpcRetryGo fn e (attempt + 1) r
        (rest.1, sleepForMs attempt e :: rest.2)
      else (.error e, [])

/-- The full run of `withRpcRetry` with its attempt budget of 20. -/
def withRpcRetryRun {α : Type} (fn : ℕ → Except String α) :
    Except String α × List ℕ :=
  withRpcRetryGo fn "" 0 20

/-- Embeds `withRpcRetry` of src/server/retry.ts (result only). -/
def withRpcRetry {α : Type} (fn : ℕ → Except String α) : Except String α :=
  (withRpcRetryRun fn).1

/-- An event-log record, reduced to the fields the retriever inspects
(`transactionHash` and `logIndex` form the deduplication identity). -/
structure LogRec where
  transactionHash : String
  logIndex : ℕ
deriving DecidableEq

/-- The deduplication key of src/server/logs.ts:
the template string `transactionHash:logIndex`. -/
def logKey (l : LogRec) : String :=
  l.transactionHash ++ ":" ++ toString l.logIndex

/-- The `seen`-set filter loop closing `getLogsChunked`
(src/server/logs.ts): keep a record iff its key was not seen before. -/
def dedupGo (seen : List String) : List LogRec → List LogRec
  | [] => []
  | l :: ls =>
    if logKey l ∈ seen then dedupGo seen ls
    else l :: dedupGo (logKey l :: seen) ls

/-- The deduplication step of `getLogsChunked`, started with an empty
`seen` set. -/
def dedupLogs (ls : List LogRec) : List LogRec :=
  dedupGo [] ls

/-- Starting chunk size of `getLogsChunked` (`const chunk = 5000n`). -/
def chunkSize : ℕ := 5000

/-- Floor chunk size of `getLogsChunked` (`const minChunk = 200n`). -/
def minChunk : ℕ := 200

/-- The initial contiguous chunk partition loop of `getLogsChunked`:
`for (start = fromBlock; start <= toBlock; start += chunk)` with
`end = min(start + chunk - 1, toBlock)`.  The first argument is a
structural-recursion budget; `toBlock + 1 - start` steps always suffice
since every iteration advances `start` by `chunkSize`. -/
def buildRangesGo : ℕ → ℕ → ℕ → List (ℕ × ℕ)
  | 0, _, _ => []
  | n + 1, start, toBlock =>
    if start ≤ toBlock then
      (start, if start + (chunkSize - 1) > toBlock then toBlock
              else start + (chunkSize - 1)) ::
        buildRangesGo n (start + chunkSize) toBlock
    else []

/-- The chunk list built by `getLogsChunked` before dispatch. -/
def buildRanges (fromBlock toBlock : ℕ) : List (ℕ × ℕ) :=
  buildRangesGo (toBlock + 1 - fromBlock) fromBlock toBlock

/-- Outcome of evaluating one chunk task: either a failure message or the
fetched records together with the list of leaf claims, each leaf claim
being the logical (pre-correction) bounds of a leaf chunk.  `none` models
a computation that did not finish within the given recursion budget. -/
abbrev ChunkOutcome := Option (Except String (List LogRec × List (ℕ × ℕ)))

/-- JS `Promise.all` over two chunk tasks: it rejects with a child's
rejection as soon as one rejects (even if the other never settles), and
fulfils with both results concatenated once both fulfil. -/
def joinSplit (a b : ChunkOutcome) : ChunkOutcome :=
  match a, b with
  | some (.error m), _ => some (.error m)
  | _, some (.error m) => some (.error m)
  | some (.ok (l1, c1)), some (.ok (l2, c2)) => some (.ok (l1 ++ l2, c1 ++ c2))
  | _, _ => none

/-- JS `Promise.all` over the list of top-level chunk tasks. -/
def allSettle : List ChunkOutcome → ChunkOutcome
  | [] => some (.ok ([], []))
  | x :: xs => joinSplit x (allSettle xs)

/-- Embeds `fetchRange` of src/server/logs.ts.  `call s e` stands for the
awaited `withRpcRetry(() => fetch({fromBlock: s, toBlock: e}))`, i.e. the
post-retry outcome of the upstream fetch on that range, modelled by its
settled value.  The error handling mirrors the source order exactly:
first `parseRetryRange` (provider-suggested corrected range, retried for
the same logical chunk, so the claim stays the original bounds), then the
`query exceeds max results` midpoint split (floor `minChunk`), then
rethrow.  The first argument is a recursion budget (`none` = not settled
within it); the instrumented claim list records, per leaf, the logical
block range that leaf covers.  The `limit(...)` (pLimit(4)) permit
acquisition wrapping each `fetchRange` in the source is not part of this
value-level evaluator: it affects scheduling, not values; its
hold-while-awaiting discipline is modelled separately by
`permitDemandGo`. -/
def fetchRangeGo (call : ℕ → ℕ → Except String (List LogRec)) :
    ℕ → ℕ → ℕ → ChunkOutcome
  | 0, _, _ => none
  | fuel + 1, start, stop =>
    match call start stop with
    | .ok logs => some (.ok (logs, [(start, stop)]))
    | .error msg =>
      match parseRetryRange msg with
      | some r =>
        match fetchRangeGo call fuel r.1 r.2 with
        | none => none
        | some (.error m) => some (.error m)
        | some (.ok p) => some (.ok (p.1, [(start, stop)]))
      | none =>
        if strContainsCI msg "query exceeds max results" then
          let size := stop - start + 1
          if size ≤ minChunk then some (.error msg)
          else
            let mid := start + size / 2
            joinSplit (fetchRangeGo call fuel start mid)
              (fetchRangeGo call fuel (mid + 1) stop)
        else some (.error msg)

/-- The chunk-dispatch phase of `getLogsChunked`: evaluate every top-level
chunk and combine results as `Promise.all` does, keeping the instrumented
leaf claims. -/
def getLogsChunkedRun (call : ℕ → ℕ → Except String (List LogRec))
    (fromBlock toBlock fuel : ℕ) : ChunkOutcome :=
  allSettle ((buildRanges fromBlock toBlock).map
    (fun r => fetchRangeGo call fuel r.1 r.2))

/-- Embeds `getLogsChunked` of src/server/logs.ts: dispatch all chunks,
concatenate the parts in chunk order, deduplicate. -/
def getLogsChunked (call : ℕ → ℕ → Except String (List LogRec))
    (fromBlock toBlock fuel : ℕ) : Option (Except String (List LogRec)) :=
  match getLogsChunkedRun call fromBlock toBlock fuel with
  | none => none
  | some (.error m) => some (.error m)
  | some (.ok (logs, _)) => some (.ok (dedupLogs logs))

/-- Modelled from the source's permit discipline: in src/server/logs.ts
every `fetchRange` — including the two recursively spawned midpoint
halves — runs inside the same `pLimit(4)` pool, and a parent chunk holds
its permit while awaiting `Promise.all` of its halves (p-limit frees a
slot only when the wrapped function's promise settles).  A chunk can
therefore settle only after some descendant chain down to a
first-settling leaf has settled, every link of the chain holding its
permit simultaneously.  Against a capability failing every call with
`query exceeds max results` (no suggested range), the split tree is the
same midpoint/floor recursion as `fetchRangeGo`, and the minimum number
of simultaneously held permits needed for a chunk to settle is: 1 for a
floor-sized chunk (it settles itself), and `1 + min` over the two halves
for a wider chunk.  When this demand exceeds the pool size 4, no
execution order can settle the chunk: the retrieval deadlocks. -/
def permitDemandGo : ℕ → ℕ → ℕ → Option ℕ
  | 0, _, _ => none
  | fuel + 1, start, stop =>
    let size := stop - start + 1
    if size ≤ minChunk then some 1
    else
      let mid := start + size / 2
      match permitDemandGo fuel start mid, permitDemandGo fuel (mid + 1) stop with
      | some a, some b => some (1 + min a b)
      | _, _ => none

/-- The linear block-time model of src/server/timeModel.ts, reduced to the
fields `applyApproxTimestamps` reads.  `latestBlock` is the reference
block, `latestTs` its (integral, seconds) timestamp, and
`avgSecondsPerBlock` the floating-point average block time, modelled as a
rational. -/
structure TimeModel where
  latestBlock : ℤ
  latestTs : ℤ
  avgSecondsPerBlock : ℚ

/-- Embeds `applyApproxTimestamps` of src/server/timeModel.ts: each item
(represented by its `blockNumber`) is paired with
`latestTs - Math.max(0, Math.round(deltaBlocks * avgSecondsPerBlock))`
where `deltaBlocks = latestBlock - blockNumber`.  JS `Math.round` is
round-half-up, which is Mathlib's `round`. -/
def applyApproxTimestamps (items : List ℤ) (model : TimeModel) :
    List (ℤ × ℤ) :=
  items.map (fun b =>
    let deltaBlocks : ℤ := model.latestBlock - b
    (b, model.latestTs -
      max 0 (round ((deltaBlocks : ℚ) * model.avgSecondsPerBlock))))

/-- Embeds the range computation at the end of `blockRangeForWindow`
(src/server/logs.ts), after the upstream samples have produced the head
block `latest` and the average block time: `estBlocks = ceil(window/avg)`,
`estFrom = latest > estBlocks ? latest - estBlocks : 0`,
`hardCapFrom = latest > maxScanBlocks ? latest - maxScanBlocks : 0`,
`fromBlock = estFrom < hardCapFrom ? hardCapFrom : estFrom`, paired with
`toBlock = latest`. -/
def blockRangeForWindowFrom (latest : ℤ) (avgSecondsPerBlock : ℚ)
    (windowSeconds : ℚ) (maxScanBlocks : ℤ) : ℤ × ℤ :=
  let estBlocks : ℤ := ⌈windowSeconds / avgSecondsPerBlock⌉
  let estFrom : ℤ := if estBlocks < latest then latest - estBlocks else 0
  let hardCapFrom : ℤ := if maxScanBlocks < latest then latest - maxScanBlocks else 0
  let fromBlock : ℤ := if estFrom < hardCapFrom then hardCapFrom else estFrom
  (fromBlock, latest)

/-- A stored cache entry of src/server/cache.ts: the value together with
its absolute expiry time (ms). -/
structure CacheEntry (V : Type) where
  expiresAt : ℕ
  value : V
deriving DecidableEq

/-- The backing store of src/server/cache.ts, modelled as an association
list keyed by the cache key (the LRU store behaves as a finite map for the
operations `get`, `set` and `delete` used here). -/
abbrev CacheStore (V : Type) := List (String × CacheEntry V)

/-- Lookup in the backing store (`cache.get`). -/
def storeGet {V : Type} (store : CacheStore V) (key : String) :
    Option (CacheEntry V) :=
  (store.find? (fun p => p.1 == key)).map (fun p => p.2)

/-- Removal from the backing store (`cache.delete`). -/
def storeDelete {V : Type} (store : CacheStore V) (key : String) :
    CacheStore V :=
  store.filter (fun p => !(p.1 == key))

/-- Insertion into the backing store (`cache.set`): replaces any previous
entry under the key; the new entry becomes the most recent. -/
def storeSet {V : Type} (store : CacheStore V) (key : String)
    (entry : CacheEntry V) : CacheStore V :=
  (key, entry) :: storeDelete store key

/-- Embeds `cacheGet` of src/server/cache.ts with the current time
(`Date.now()`) made explicit: a hit whose `expiresAt` has passed is
deleted and reported absent.  Returns the result together with the store
after the call. -/
def cacheGet {V : Type} (store : CacheStore V) (now : ℕ) (key : String) :
    Option V × CacheStore V :=
  match storeGet store key with
  | none => (none, store)
  | some hit =>
    if hit.expiresAt < now then (none, storeDelete store key)
    else (some hit.value, store)

/-- Embeds `cacheSet` of src/server/cache.ts with `Date.now()` explicit:
stores the value with `expiresAt = now + ttlMs`. -/
def cacheSet {V : Type} (store : CacheStore V) (now : ℕ) (key : String)
    (value : V) (ttlMs : ℕ) : CacheStore V :=
  storeSet store key ⟨now + ttlMs, value⟩

/-- A wrapped call that always fails with a non-retryable message. -/
def fnBad : ℕ → Except String ℕ := fun _ => .error "bad request"

/-- A wrapped call that always fails rate-limited, with a provider-stated
wait in the message. -/
def fn429 : ℕ → Except String ℕ := fun _ => .error "Status: 429, try again in 5000ms"

/-- A fetch capability that always succeeds with no records. -/
def callOk : ℕ → ℕ → Except String (List LogRec) := fun _ _ => .ok []

/-- A fetch capability that always reports a too-large result set. -/
def callTooLarge : ℕ → ℕ → Except String (List LogRec) :=
  fun _ _ => .error "query exceeds max results"

/-- A provider message that matches both the too-large pattern and the
suggested-range pattern. -/
def dualMsg : String := "query exceeds max results: retry with the range 10-20"

/-- A fetch capability that answers the chunk `[0, 4999]` with `dualMsg`
and any other range with no records. -/
def callDual : ℕ → ℕ → Except String (List LogRec) := fun s e =>
  if s = 0 ∧ e = 4999 then .error dualMsg else .ok []

lemma dedupGo_sublist : ∀ (seen : List String) (xs : List LogRec),
    List.Sublist (dedupGo seen xs) xs := by
  intro seen xs
  induction xs generalizing seen with
  | nil => simp [dedupGo]
  | cons l ls ih =>
    simp only [dedupGo]
    by_cases hl : logKey l ∈ seen
    · rw [if_pos hl]; exact (ih seen).cons l
    · rw [if_neg hl]; exact (ih (logKey l :: seen)).cons₂ l

lemma dedupGo_filter (k : String) :
    ∀ (seen : List String) (xs : List LogRec),
      (dedupGo seen xs).filter (fun l => logKey l == k) =
        if k ∈ seen then [] else (xs.filter (fun l => logKey l == k)).take 1 := by
  intro seen xs
  induction xs generalizing seen with
  | nil =>
    simp only [dedupGo, List.filter_nil, List.take_nil]
    split <;> rfl
  | cons l ls ih =>
    simp only [dedupGo]
    by_cases hl : logKey l ∈ seen
    · rw [if_pos hl, ih seen]
      by_cases hk : k ∈ seen
      · simp [hk]
      · have hkl : (logKey l == k) = false := by
          simp only [beq_eq_false_iff_ne]
          intro he; exact hk (he ▸ hl)
        simp [hk, List.filter_cons, hkl]
    · rw [if_neg hl]
      by_cases hkl : logKey l = k
      · subst hkl
        rw [List.filter_cons, List.filter_cons]
        simp only [beq_self_eq_true, if_true]
        rw [ih (logKey l :: seen)]
        simp [hl]
      · have hf : (logKey l == k) = false := by
          simp only [beq_eq_false_iff_ne]; exact hkl
        rw [List.filter_cons, List.filter_cons, hf]
        simp only [Bool.false_eq_true, if_false]
        rw [ih (logKey l :: seen)]
        have hmem : (k ∈ logKey l :: seen) ↔ k ∈ seen := by
          constructor
          · intro hin
            rcases List.mem_cons.mp hin with he | hin2
            · exact absurd he.symm hkl
            · exact hin2
          · exact fun hin => List.mem_cons.mpr (Or.inr hin)
        by_cases hk : k ∈ seen
        · simp [hk, hmem.mpr hk]
        · rw [if_neg (fun hin => hk (hmem.mp hin)), if_neg hk]

lemma dedupGo_idem : ∀ (seen : List String) (xs : List LogRec),
    dedupGo seen (dedupGo seen xs) = dedupGo seen xs := by
  intro seen xs
  induction xs generalizing seen with
  | nil => simp [dedupGo]
  | cons l ls ih =>
    simp only [dedupGo]
    by_cases hl : logKey l ∈ seen
    · rw [if_pos hl, ih seen]
    · rw [if_neg hl]
      conv =>
        lhs
        rw [dedupGo]
      rw [if_neg hl, ih (logKey l :: seen)]

/-- Claim C4 — the deduplication step of `getLogsChunked` keeps, for each
identity key `transactionHash:logIndex`, only the first occurrence in the
collected record list (the result is a sublist of the input whose
restriction to any key is the first occurrence with that key), and it is
idempotent: deduplicating twice equals deduplicating once. -/
theorem dedupLogs_keeps_first_idempotent :
    (∀ xs : List LogRec, List.Sublist (dedupLogs xs) xs) ∧
    (∀ (xs : List LogRec) (k : String),
      (dedupLogs xs).filter (fun l => logKey l == k) =
        (xs.filter (fun l => logKey l == k)).take 1) ∧
    (∀ xs : List LogRec, dedupLogs (dedupLogs xs) = dedupLogs xs) := by
  refine ⟨fun xs => dedupGo_sublist [] xs, fun xs k => ?_,
    fun xs => dedupGo_idem [] xs⟩
  have h := dedupGo_filter k [] xs
  simpa [dedupLogs] using h

lemma storeGet_delete {V : Type} (store : CacheStore V) (key : String) :
    storeGet (storeDelete store key) key = none := by
  have h : (storeDelete store key).find? (fun p => p.1 == key) = none := by
    rw [List.find?_eq_none]
    intro x hx
    rw [storeDelete, List.mem_filter] at hx
    simpa using hx.2
  simp [storeGet, h]

lemma cacheGet_expired {V : Type} (store : CacheStore V) (now : ℕ)
    (key : String) (entry : CacheEntry V)
    (hget : storeGet store key = some entry) (hexp : entry.expiresAt < now) :
    cacheGet store now key = (none, storeDelete store key) := by
  simp [cacheGet, hget, hexp]

/-- Claim C9 — lazy cache expiry: a `cacheGet` strictly after the stored
entry's `expiresAt` returns absent and removes the entry from the backing
store; a non-absent `cacheGet` result only ever comes from an entry whose
`expiresAt` has not passed; and concretely, `cacheSet` with a 10 ms TTL
followed by `cacheGet` 20 ms later returns absent and leaves no entry
under the key in the store. -/
theorem cacheGet_lazy_expiry :
    (∀ (V : Type) (store : CacheStore V) (now : ℕ) (key : String)
      (entry : CacheEntry V),
      storeGet store key = some entry → entry.expiresAt < now →
      cacheGet store now key = (none, storeDelete store key) ∧
        storeGet (cacheGet store now key).2 key = none) ∧
    (∀ (V : Type) (store : CacheStore V) (now : ℕ) (key : String) (v : V),
      (cacheGet store now key).1 = some v →
      ∃ entry, storeGet store key = some entry ∧ entry.value = v ∧
        now ≤ entry.expiresAt) ∧
    (∀ (V : Type) (store : CacheStore V) (t0 : ℕ) (key : String) (v : V),
      (cacheGet (cacheSet store t0 key v 10) (t0 + 20) key).1 = none ∧
        storeGet (cacheGet (cacheSet store t0 key v 10) (t0 + 20) key).2 key =
          none) := by
  refine ⟨?_, ?_, ?_⟩
  · intro V store now key entry hget hexp
    have h1 := cacheGet_expired store now key entry hget hexp
    refine ⟨h1, ?_⟩
    rw [h1]
    exact storeGet_delete store key
  · intro V store now key v hv
    rcases hget : storeGet store key with _ | entry
    · simp [cacheGet, hget] at hv
    · by_cases hexp : entry.expiresAt < now
      · simp [cacheGet, hget, hexp] at hv
      · refine ⟨entry, rfl, ?_, by omega⟩
        simp only [cacheGet, hget] at hv
        rw [if_neg hexp] at hv
        exact Option.some_inj.mp hv
  · intro V store t0 key v
    have hget : storeGet (cacheSet store t0 key v 10) key =
        some ⟨t0 + 10, v⟩ := by
      simp [cacheSet, storeSet, storeGet, List.find?_cons_of_pos]
    have h1 := cacheGet_expired (cacheSet store t0 key v 10) (t0 + 20) key
      ⟨t0 + 10, v⟩ hget (by simp)
    rw [h1]
    exact ⟨rfl, storeGet_delete _ key⟩

lemma round_le_round_rat {x y : ℚ} (h : x ≤ y) : round x ≤ round y := by
  rw [round_eq, round_eq]
  exact Int.floor_le_floor (by linarith)

lemma max_zero_round_mul (d : ℤ) (a : ℚ) (ha : 0 ≤ a) :
    max 0 (round ((d : ℚ) * a)) = round (((max 0 d : ℤ) : ℚ) * a) := by
  rcases le_or_lt 0 d with hd | hd
  · have h1 : ((max 0 d : ℤ) : ℚ) = (d : ℚ) := by
      rw [max_eq_right hd]
    rw [h1]
    have h2 : (0 : ℤ) ≤ round ((d : ℚ) * a) := by
      have h3 : (0 : ℚ) ≤ (d : ℚ) * a :=
        mul_nonneg (by exact_mod_cast hd) ha
      calc (0 : ℤ) = round (0 : ℚ) := (round_zero).symm
        _ ≤ round ((d : ℚ) * a) := round_le_round_rat h3
    exact max_eq_right h2
  · have h1 : max 0 d = 0 := max_eq_left hd.le
    rw [h1]
    have h3 : (d : ℚ) * a ≤ 0 := by
      have hd0 : (d : ℚ) ≤ 0 := by exact_mod_cast hd.le
      calc (d : ℚ) * a ≤ 0 * a := mul_le_mul_of_nonneg_right hd0 ha
        _ = 0 := zero_mul a
    have h2 : round ((d : ℚ) * a) ≤ 0 := by
      calc round ((d : ℚ) * a) ≤ round (0 : ℚ) := round_le_round_rat h3
        _ = 0 := round_zero
    rw [max_eq_left h2]
    simp [round_zero]

/-- Claim C8 — timestamp linearity: under a nonnegative average block
time, `applyApproxTimestamps` assigns every item the timestamp
`latestTs - round(max(0, latestBlock - blockNumber) * avgSecondsPerBlock)`;
and for the model with reference block 200, reference timestamp 1000 and
one second per block, the item at block 150 gets 950 and the item at
block 200 gets 1000. -/
theorem applyApproxTimestamps_linear (model : TimeModel) (items : List ℤ)
    (h : 0 ≤ model.avgSecondsPerBlock) :
    (applyApproxTimestamps items model =
      items.map (fun b => (b, model.latestTs -
        round (((max 0 (model.latestBlock - b) : ℤ) : ℚ) *
          model.avgSecondsPerBlock)))) ∧
    applyApproxTimestamps [150, 200] ⟨200, 1000, 1⟩ =
      [(150, 950), (200, 1000)] := by
  constructor
  · simp only [applyApproxTimestamps]
    apply List.map_congr_left
    intro b _
    rw [max_zero_round_mul (model.latestBlock - b) model.avgSecondsPerBlock h]
  · simp only [applyApproxTimestamps, List.map_cons, List.map_nil]
    norm_num

/-- Claim C7 — range estimation capping: the block range computed by
`blockRangeForWindow` has `fromBlock = max(candidate, hardCapFrom)` with
`candidate = max(0, head - ceil(window/avg))` and
`hardCapFrom = max(0, head - maxScanBlocks)`, so the more restrictive hard
cap wins; `fromBlock ≤ toBlock`; and for head 100000, two seconds per
block, a 3600 s window and a 1000-block cap, the returned from-block is
99000. -/
theorem blockRangeForWindow_capping (latest maxScanBlocks : ℤ)
    (avg windowSeconds : ℚ) (h1 : 0 ≤ latest) (h2 : 0 ≤ maxScanBlocks)
    (h3 : 0 ≤ windowSeconds) (h4 : 0 < avg) :
    ((blockRangeForWindowFrom latest avg windowSeconds maxScanBlocks).1 =
      max (max 0 (latest - ⌈windowSeconds / avg⌉))
        (max 0 (latest - maxScanBlocks))) ∧
    ((blockRangeForWindowFrom latest avg windowSeconds maxScanBlocks).1 ≤
      (blockRangeForWindowFrom latest avg windowSeconds maxScanBlocks).2) ∧
    blockRangeForWindowFrom 100000 2 3600 1000 = (99000, 100000) := by
  have hE : 0 ≤ ⌈windowSeconds / avg⌉ := Int.ceil_nonneg (div_nonneg h3 h4.le)
  refine ⟨?_, ?_, ?_⟩
  · simp only [blockRangeForWindowFrom]
    revert hE
    generalize ⌈windowSeconds / avg⌉ = E
    intro hE
    split_ifs <;> omega
  · simp only [blockRangeForWindowFrom]
    revert hE
    generalize ⌈windowSeconds / avg⌉ = E
    intro hE
    split_ifs <;> omega
  · have hceil : (⌈(3600 : ℚ) / 2⌉ : ℤ) = 1800 := by norm_num
    simp only [blockRangeForWindowFrom, hceil]
    norm_num

lemma withRpcRetryGo_fatal {α : Type} (fn : ℕ → Except String α) :
    ∀ (k r a : ℕ) (le e : String), k < r →
      (∀ i, a ≤ i → i < a + k →
        ∃ e2, fn i = .error e2 ∧ retryableError e2 = true) →
      fn (a + k) = .error e → retryableError e = false →
      (withRpcRetryGo fn le a r).1 = .error e ∧
        (withRpcRetryGo fn le a r).2.length = k := by
  intro k
  induction k with
  | zero =>
    intro r a le e hkr _ hfn hret
    obtain ⟨r', rfl⟩ : ∃ r', r = r' + 1 := ⟨r - 1, by omega⟩
    rw [Nat.add_zero] at hfn
    simp [withRpcRetryGo, hfn, hret]
  | succ k ih =>
    intro r a le e hkr hpre hfn hret
    obtain ⟨r', rfl⟩ : ∃ r', r = r' + 1 := ⟨r - 1, by omega⟩
    obtain ⟨e0, hfn0, hret0⟩ := hpre a (le_refl a) (by omega)
    have hrec := ih r' (a + 1) e0 e (by omega)
      (fun i h1 h2 => hpre i (by omega) (by omega))
      (by rw [show a + 1 + k = a + (k + 1) from by omega]; exact hfn) hret
    simp only [withRpcRetryGo, hfn0, hret0, if_true]
    simpa using hrec

lemma withRpcRetryGo_exhaust {α : Type} (fn : ℕ → Except String α) :
    ∀ (r a : ℕ) (le : String), 0 < r →
      (∀ i, a ≤ i → i < a + r →
        ∃ e, fn i = .error e ∧ retryableError e = true) →
      ∃ e, fn (a + r - 1) = .error e ∧
        (withRpcRetryGo fn le a r).1 = .error e ∧
        (withRpcRetryGo fn le a r).2.length = r := by
  intro r
  induction r with
  | zero => intro a le h; omega
  | succ r ih =>
    intro a le _ hpre
    obtain ⟨e0, hfn0, hret0⟩ := hpre a (le_refl a) (by omega)
    rcases Nat.eq_zero_or_pos r with hr | hr
    · subst hr
      refine ⟨e0, by simpa using hfn0, ?_⟩
      simp [withRpcRetryGo, hfn0, hret0]
    · obtain ⟨e, hfn, hres, hlen⟩ := ih (a + 1) e0 hr
        (fun i h1 h2 => hpre i (by omega) (by omega))
      refine ⟨e, by rw [show a + (r + 1) - 1 = a + 1 + r - 1 from by omega]; exact hfn, ?_, ?_⟩
      · simp only [withRpcRetryGo, hfn0, hret0, if_true]
        exact hres
      · simp only [withRpcRetryGo, hfn0, hret0, if_true, List.length_cons]
        omega

lemma withRpcRetryGo_waits {α : Type} (fn : ℕ → Except String α) :
    ∀ (r a i : ℕ) (le : String), i < (withRpcRetryGo fn le a r).2.length →
      ∃ e, fn (a + i) = .error e ∧ retryableError e = true ∧
        (withRpcRetryGo fn le a r).2.getD i 0 = sleepForMs (a + i) e := by
  intro r
  induction r with
  | zero => intro a i le h; simp [withRpcRetryGo] at h
  | succ r ih =>
    intro a i le h
    rcases hfn : fn a with e0 | v
    case succ.ok => simp [withRpcRetryGo, hfn] at h
    · rcases hret : retryableError e0 with _ | _
      · simp [withRpcRetryGo, hfn, hret] at h
      · simp only [withRpcRetryGo, hfn, hret, if_true, List.length_cons] at h
        rcases i with _ | i'
        · refine ⟨e0, by simpa using hfn, hret, ?_⟩
          simp [withRpcRetryGo, hfn, hret]
        · obtain ⟨e, hfn2, hret2, hgd⟩ := ih (a + 1) i' e0 (by omega)
          refine ⟨e, by rw [show a + (i' + 1) = a + 1 + i' from by omega]; exact hfn2,
            hret2, ?_⟩
          simp only [withRpcRetryGo, hfn, hret, if_true, List.getD_cons_succ]
          rw [hgd]
          congr 1
          omega

/-- Claim C5 — retry policy of `withRpcRetry`: a failure classified
neither RateLimited nor Transient is propagated to the caller immediately
(after any earlier retryable failures, with no further retry: the wait
list stops at that attempt), and if all 20 budgeted attempts fail
retryably, the failure of the last attempt (attempt 19) is propagated. -/
theorem withRpcRetry_policy {α : Type} (fn : ℕ → Except String α) :
    (∀ (k : ℕ) (e : String), k < 20 →
      (∀ i, i < k → ∃ e2, fn i = .error e2 ∧ retryableError e2 = true) →
      fn k = .error e → retryableError e = false →
      withRpcRetry fn = .error e ∧ (withRpcRetryRun fn).2.length = k) ∧
    ((∀ i, i < 20 → ∃ e, fn i = .error e ∧ retryableError e = true) →
      ∃ e, fn 19 = .error e ∧ withRpcRetry fn = .error e ∧
        (withRpcRetryRun fn).2.length = 20) := by
  constructor
  · intro k e hk hpre hfn hret
    have h := withRpcRetryGo_fatal fn k 20 0 "" e hk
      (fun i h1 h2 => hpre i (by omega)) (by simpa using hfn) hret
    exact ⟨h.1, h.2⟩
  · intro hpre
    obtain ⟨e, hfn, hres, hlen⟩ := withRpcRetryGo_exhaust fn 20 0 "" (by omega)
      (fun i h1 h2 => hpre i (by omega))
    exact ⟨e, by simpa using hfn, hres, hlen⟩

/-- Witness for C5: a constant non-retryable failure propagates at once,
with an empty wait list. -/
theorem withRpcRetry_policy_witness :
    withRpcRetry fnBad = .error "bad request" ∧
      (withRpcRetryRun fnBad).2.length = 0 :=
  (withRpcRetry_policy fnBad).1 0 "bad request" (by omega)
    (fun i h => absurd h (by omega)) rfl rfl

/-- Claim C6 — backoff schedule: the computed backoff for attempt `a` is
`min(10000, 200 * 2^min(6, a))` ms, it is non-decreasing in the attempt
number and never exceeds the 10000 ms cap, and every wait actually
performed by a `withRpcRetry` run is the larger of the computed backoff
for that attempt and the provider-stated wait parsed from that attempt's
failure message. -/
theorem withRpcRetry_backoff_schedule :
    (∀ a : ℕ, backoffMs a = min 10000 (200 * 2 ^ min 6 a)) ∧
    (∀ a b : ℕ, a ≤ b → backoffMs a ≤ backoffMs b) ∧
    (∀ a : ℕ, backoffMs a ≤ 10000) ∧
    (∀ (α : Type) (fn : ℕ → Except String α) (i : ℕ),
      i < (withRpcRetryRun fn).2.length →
      ∃ e, fn i = .error e ∧ retryableError e = true ∧
        (withRpcRetryRun fn).2.getD i 0 =
          max ((parseRetryAfterMs e).getD 0) (backoffMs i)) := by
  refine ⟨fun a => rfl, ?_, fun a => min_le_left _ _, ?_⟩
  · intro a b hab
    have hpow : 2 ^ min 6 a ≤ 2 ^ min 6 b :=
      Nat.pow_le_pow_right (by omega) (min_le_min (le_refl 6) hab)
    exact min_le_min (le_refl 10000) (Nat.mul_le_mul_left 200 hpow)
  · intro α fn i h
    obtain ⟨e, hfn, hret, hgd⟩ := withRpcRetryGo_waits fn 20 0 i "" h
    exact ⟨e, by simpa using hfn, hret, by simpa [sleepForMs] using hgd⟩

/-- Witness for C6: with a constant rate-limited failure carrying
`try again in 5000ms`, the first wait performed is the provider-stated
5000 ms (larger than the 200 ms computed backoff for attempt 0). -/
theorem withRpcRetry_backoff_schedule_witness :
    ∃ e, fn429 0 = .error e ∧ retryableError e = true ∧
      (withRpcRetryRun fn429).2.getD 0 0 =
        max ((parseRetryAfterMs e).getD 0) (backoffMs 0) :=
  withRpcRetry_backoff_schedule.2.2.2 ℕ fn429 0 (by decide)

/-- Claim C3 — suggested-range priority: whenever a chunk's call fails
with a message from which `parseRetryRange` extracts a corrected range,
`fetchRange` retries that same logical chunk against the corrected bounds
(the outcome is exactly that of evaluating the corrected range, with the
leaf claim still attributed to the original chunk) — with no constraint on
the message, so this holds even for messages that also contain the
`query exceeds max results` too-large pattern: the suggested-range check
comes first and no midpoint split happens. -/
theorem fetchRange_suggested_priority
    (call : ℕ → ℕ → Except String (List LogRec))
    (start stop f t fuel : ℕ) (msg : String)
    (hc : call start stop = .error msg)
    (hp : parseRetryRange msg = some (f, t)) :
    fetchRangeGo call (fuel + 1) start stop =
      match fetchRangeGo call fuel f t with
      | none => none
      | some (.error m) => some (.error m)
      | some (.ok p) => some (.ok (p.1, [(start, stop)])) := by
  simp only [fetchRangeGo, hc, hp]

/-- Witness for C3: on the chunk `[0, 4999]`, `callDual` fails with a
message matching both the too-large and the suggested-range patterns; the
retriever follows the corrected range `[10, 20]` (which succeeds) instead
of splitting, and the leaf claim keeps the original chunk bounds. -/
theorem fetchRange_suggested_priority_witness :
    fetchRangeGo callDual 2 0 4999 = some (.ok ([], [(0, 4999)])) := by
  rw [fetchRange_suggested_priority callDual 0 4999 10 20 1 dualMsg rfl rfl]
  rfl

lemma fetchRangeGo_tooLarge
    (call : ℕ → ℕ → Except String (List LogRec))
    (H : ∀ s e, call s e = .error "query exceeds max results") :
    ∀ (fuel s e : ℕ), s ≤ e → e + 1 - s ≤ fuel →
      fetchRangeGo call fuel s e =
        some (.error "query exceeds max results") := by
  intro fuel
  induction fuel with
  | zero => intro s e h1 h2; omega
  | succ fuel ih =>
    intro s e h1 h2
    have hpr : parseRetryRange "query exceeds max results" = none := rfl
    have hci :
        strContainsCI "query exceeds max results" "query exceeds max results" =
          true := rfl
    simp only [fetchRangeGo, H s e, hpr, hci, if_true]
    by_cases hsz : e - s + 1 ≤ minChunk
    · rw [if_pos hsz]
    · rw [if_neg hsz]
      simp only [minChunk] at hsz
      have hmid1 : s ≤ s + (e - s + 1) / 2 := by omega
      have hmid2 : s + (e - s + 1) / 2 + 1 ≤ e := by omega
      rw [ih s (s + (e - s + 1) / 2) hmid1 (by omega),
          ih (s + (e - s + 1) / 2 + 1) e hmid2 (by omega)]
      rfl

/-- Claim C2 — code bug: the split recursion itself does reach the
200-block floor against a capability failing every call with
`query exceeds max results`, and the permit-free value-level evaluation of
the starting chunk `[0, 4999]` propagates that error (first conjunct, the
behaviour the claim and the spec describe).  But in the source every
`fetchRange` runs inside the same `pLimit(4)` pool and a parent holds its
permit while awaiting its split halves, so settling a chunk needs
`permitDemandGo` simultaneously held permits; for `[0, 4999]` this demand
is 6 > 4 (second conjunct), which no execution order of a four-permit
pool can supply — `getLogsChunked` deadlocks instead of terminating with
the error as the claim states. -/
theorem getLogsChunked_split_deadlock :
    fetchRangeGo callTooLarge 5000 0 4999 =
        some (.error "query exceeds max results") ∧
    permitDemandGo 13 0 4999 = some 6 := by
  constructor
  · exact fetchRangeGo_tooLarge callTooLarge (fun _ _ => rfl) 5000 0 4999
      (by omega) (by omega)
  · rfl

lemma joinSplit_ok_iff {a b : ChunkOutcome} {l : List LogRec}
    {c : List (ℕ × ℕ)} :
    joinSplit a b = some (.ok (l, c)) ↔
      ∃ l1 c1 l2 c2, a = some (.ok (l1, c1)) ∧ b = some (.ok (l2, c2)) ∧
        l = l1 ++ l2 ∧ c = c1 ++ c2 := by
  constructor
  · intro h
    rcases a with _ | (m | ⟨l1, c1⟩)
    · rcases b with _ | (m2 | p2) <;> simp [joinSplit] at h
    · rcases b with _ | (m2 | p2) <;> simp [joinSplit] at h
    · rcases b with _ | (m2 | ⟨l2, c2⟩)
      · simp [joinSplit] at h
      · simp [joinSplit] at h
      · simp only [joinSplit, Option.some_inj, Except.ok.injEq,
          Prod.mk.injEq] at h
        exact ⟨l1, c1, l2, c2, rfl, rfl, h.1.symm, h.2.symm⟩
  · rintro ⟨l1, c1, l2, c2, rfl, rfl, rfl, rfl⟩
    rfl

lemma count_single_range (s e b : ℕ) :
    [(s, e)].countP (fun r => decide (r.1 ≤ b ∧ b ≤ r.2)) =
      if s ≤ b ∧ b ≤ e then 1 else 0 := by
  by_cases h : s ≤ b ∧ b ≤ e <;> simp [List.countP_cons, h]

lemma fetchRangeGo_claims_count
    (call : ℕ → ℕ → Except String (List LogRec)) :
    ∀ (fuel s e : ℕ) (logs : List LogRec) (claims : List (ℕ × ℕ)),
      s ≤ e →
      fetchRangeGo call fuel s e = some (.ok (logs, claims)) →
      ∀ b, claims.countP (fun r => decide (r.1 ≤ b ∧ b ≤ r.2)) =
        if s ≤ b ∧ b ≤ e then 1 else 0 := by
  intro fuel
  induction fuel with
  | zero => intro s e logs claims _ h; simp [fetchRangeGo] at h
  | succ fuel ih =>
    intro s e logs claims hse h b
    rcases hcall : call s e with msg | logs0
    · simp only [fetchRangeGo, hcall] at h
      rcases hpr : parseRetryRange msg with _ | r
      · simp only [hpr] at h
        by_cases hci : strContainsCI msg "query exceeds max results" = true
        · rw [if_pos hci] at h
          by_cases hsz : e - s + 1 ≤ minChunk
          · rw [if_pos hsz] at h
            simp at h
          · rw [if_neg hsz] at h
            simp only [minChunk] at hsz
            rw [joinSplit_ok_iff] at h
            obtain ⟨l1, c1, l2, c2, ha, hb, hl, hc⟩ := h
            have hmid1 : s ≤ s + (e - s + 1) / 2 := by omega
            have hmid2 : s + (e - s + 1) / 2 + 1 ≤ e := by omega
            have hc1 := ih s (s + (e - s + 1) / 2) l1 c1 hmid1 ha b
            have hc2 := ih (s + (e - s + 1) / 2 + 1) e l2 c2 hmid2 hb b
            subst hc
            rw [List.countP_append, hc1, hc2]
            split_ifs <;> omega
        · rw [if_neg hci] at h
          simp at h
      · simp only [hpr] at h
        have hclaims : claims = [(s, e)] := by
          rcases hsub : fetchRangeGo call fuel r.1 r.2 with _ | (m | p) <;>
            simp [hsub] at h
          exact h.2.symm
        rw [hclaims]
        exact count_single_range s e b
    · simp only [fetchRangeGo, hcall, Option.some_inj, Except.ok.injEq,
        Prod.mk.injEq] at h
      rw [← h.2]
      exact count_single_range s e b

lemma allSettle_buildRanges_count
    (call : ℕ → ℕ → Except String (List LogRec)) :
    ∀ (n s t fuel b : ℕ) (logs : List LogRec) (claims : List (ℕ × ℕ)),
      t + 1 - s ≤ n →
      allSettle ((buildRangesGo n s t).map
        (fun r => fetchRangeGo call fuel r.1 r.2)) =
          some (.ok (logs, claims)) →
      claims.countP (fun r => decide (r.1 ≤ b ∧ b ≤ r.2)) =
        if s ≤ b ∧ b ≤ t then 1 else 0 := by
  intro n
  induction n with
  | zero =>
    intro s t fuel b logs claims hb h
    simp only [buildRangesGo, List.map_nil, allSettle, Option.some_inj,
      Except.ok.injEq, Prod.mk.injEq] at h
    rw [← h.2]
    have hout : ¬(s ≤ b ∧ b ≤ t) := by omega
    simp [hout]
  | succ n ih =>
    intro s t fuel b logs claims hb h
    by_cases hst : s ≤ t
    · simp only [buildRangesGo, if_pos hst, List.map_cons, allSettle] at h
      rw [joinSplit_ok_iff] at h
      obtain ⟨l1, c1, l2, c2, ha, hbs, hl, hc⟩ := h
      have hE1 :
          s ≤ (if s + (chunkSize - 1) > t then t else s + (chunkSize - 1)) := by
        simp only [chunkSize]
        split <;> omega
      have hcnt1 := fetchRangeGo_claims_count call fuel s
        (if s + (chunkSize - 1) > t then t else s + (chunkSize - 1))
        l1 c1 hE1 ha b
      have hcnt2 := ih (s + chunkSize) t fuel b l2 c2
        (by simp only [chunkSize]; omega) hbs
      subst hc
      rw [List.countP_append, hcnt1, hcnt2]
      simp only [chunkSize]
      split_ifs <;> omega
    · simp only [buildRangesGo, if_neg hst, List.map_nil, allSettle,
        Option.some_inj, Except.ok.injEq, Prod.mk.injEq] at h
      rw [← h.2]
      have hout : ¬(s ≤ b ∧ b ≤ t) := by omega
      simp [hout]

/-- Claim C1 — coverage: for every range with `fromBlock ≤ toBlock` and
every fetch capability, if the chunk-dispatch phase of `getLogsChunked`
completes successfully then the leaf claims (the logical block ranges of
the initial contiguous chunk partition, refined by recursive midpoint
splits, with a provider-corrected retry still claiming its original chunk
bounds) cover `[fromBlock, toBlock]` exactly: every block number in the
range lies in exactly one claimed leaf range, and no block outside the
range lies in any. -/
theorem getLogsChunked_coverage
    (call : ℕ → ℕ → Except String (List LogRec))
    (fromBlock toBlock fuel : ℕ) (logs : List LogRec)
    (claims : List (ℕ × ℕ)) (hle : fromBlock ≤ toBlock)
    (hrun : getLogsChunkedRun call fromBlock toBlock fuel =
      some (.ok (logs, claims))) :
    ∀ b, claims.countP (fun r => decide (r.1 ≤ b ∧ b ≤ r.2)) =
      if fromBlock ≤ b ∧ b ≤ toBlock then 1 else 0 := by
  intro b
  exact allSettle_buildRanges_count call (toBlock + 1 - fromBlock) fromBlock
    toBlock fuel b logs claims (le_refl _) hrun

/-- Witness for C1: a always-successful capability on `[0, 12000]` claims
the three chunks of the initial partition, and block 7000 is covered
exactly once. -/
theorem getLogsChunked_coverage_witness :
    [(0, 4999), (5000, 9999), (10000, 12000)].countP
      (fun r => decide (r.1 ≤ 7000 ∧ 7000 ≤ r.2)) =
      if 0 ≤ 7000 ∧ 7000 ≤ 12000 then 1 else 0 :=
  getLogsChunked_coverage callOk 0 12000 1 []
    [(0, 4999), (5000, 9999), (10000, 12000)] (by omega) rfl 7000

/-- Witness for C7: the spec's concrete capping instance. -/
theorem blockRangeForWindow_capping_witness :
    blockRangeForWindowFrom 100000 2 3600 1000 = (99000, 100000) :=
  (blockRangeForWindow_capping 100000 1000 2 3600 (by norm_num) (by norm_num)
    (by norm_num) (by norm_num)).2.2

/-- Witness for C8: the spec's concrete linearity instance. -/
theorem applyApproxTimestamps_linear_witness :
    applyApproxTimestamps [150, 200] ⟨200, 1000, 1⟩ =
      [(150, 950), (200, 1000)] :=
  (applyApproxTimestamps_linear ⟨200, 1000, 1⟩ [150, 200] (by norm_num)).2

/-- Witness for C9: an entry stored with expiry 5 is read at time 6; the
read is absent and the entry is removed from the store. -/
theorem cacheGet_lazy_expiry_witness :
    cacheGet ([("k", ⟨5, 7⟩)] : CacheStore ℕ) 6 "k" =
        (none, storeDelete [("k", ⟨5, 7⟩)] "k") ∧
      storeGet (cacheGet ([("k", ⟨5, 7⟩)] : CacheStore ℕ) 6 "k").2 "k" =
        none :=
  cacheGet_lazy_expiry.1 ℕ [("k", ⟨5, 7⟩)] 6 "k" ⟨5, 7⟩ rfl
    (by show (5 : ℕ) < 6; omega)
